import Mathlib

set_option linter.unusedSectionVars false
set_option linter.unnecessarySeqFocus false
set_option linter.unusedVariables false

/-!
# Tempo DEX — verification of the token-tree router and liquidity aggregator

Shallow embedding of the pure computation core of the `tempo-dex` repository:

* `src/src/swap.ts` — `FEE_PER_HOP`, `getPathToRoot`, `calculateSwapRoute`,
  `getTokenDepth` (the token-tree router).
* `src/src/data.ts` — `getPathToRoot` (local copy), `getSwapPath`, and the pure
  aggregation tail of `fetchPairLiquidity`.
* `computePairLiquidity` — the pure liquidity aggregator; only its unit test is
  present in the repository, so it is modelled from the spec (§4.2).

Addresses are opaque identifiers: we embed them as an arbitrary type `α` with
decidable equality.  The JS `while (current) { ... current = getParent(current) }`
loops terminate only on acyclic parent maps; we embed them as fuel-indexed
recursions together with the decidable predicate `reachesRoot` stating that the
fuel is sufficient (i.e. the walk genuinely reaches a parentless token, which is
exactly the situation in which the JS loop terminates).
-/

namespace TempoDex

variable {α : Type} [DecidableEq α]

/-- `FEE_PER_HOP` constant (src/src/swap.ts line 8). -/
def FEE_PER_HOP : ℚ := 997 / 1000

/-- JS `Array.prototype.indexOf`: index of the first occurrence, `-1` if absent. -/
def jsIndexOf (l : List α) (x : α) : Int :=
  match l with
  | [] => -1
  | a :: rest =>
      if a = x then 0
      else
        let r := jsIndexOf rest x
        if r = -1 then -1 else r + 1

/-- JS `Array.prototype.slice(0, e)`: a negative end counts from the end of the
array, and the end is clamped to the array length. -/
def jsSliceTo (l : List α) (e : Int) : List α :=
  let n : Int := l.length
  let e' : Int := if e < 0 then max (n + e) 0 else min e n
  l.take e'.toNat

/-- `getPathToRoot` (src/src/swap.ts lines 27-38, identical local copy in
src/src/data.ts lines 31-39): walk from `t` up to the root, returning the
visited tokens in order.  The JS `while (current)` loop is embedded with fuel;
when the fuel runs out the walk is cut short (the JS original would instead
loop forever, which only happens on cyclic parent maps). -/
def getPathToRoot (getParent : α → Option α) (fuel : ℕ) (t : α) : List α :=
  match getParent t with
  | none => [t]
  | some p =>
    match fuel with
    | 0 => [t]
    | n + 1 => t :: getPathToRoot getParent n p

/-- `getTokenDepth` (src/src/swap.ts lines 84-95): number of parent hops from
`t` to a parentless token (root has depth 0), fuel-indexed as above. -/
def getTokenDepth (getParent : α → Option α) (fuel : ℕ) (t : α) : ℕ :=
  match getParent t with
  | none => 0
  | some p =>
    match fuel with
    | 0 => 0
    | n + 1 => getTokenDepth getParent n p + 1

/-- The parent walk from `t` reaches a parentless token within `fuel` steps.
This is precisely the condition under which the JS `while` loops of
`getPathToRoot` / `getTokenDepth` terminate and the fuel embedding is exact. -/
def reachesRoot (getParent : α → Option α) (fuel : ℕ) (t : α) : Bool :=
  match getParent t with
  | none => true
  | some p =>
    match fuel with
    | 0 => false
    | n + 1 => reachesRoot getParent n p

/-- `SwapRoute` (src/src/swap.ts lines 14-20).  The JS `Set<Address>` field
`highlightNodes` is embedded as its insertion-ordered, duplicate-free list of
elements. -/
structure SwapRoute (α : Type) where
  inputPath : List α
  outputPath : List α
  highlightNodes : List α
  hops : Int
  rate : ℚ
deriving DecidableEq

/-- JS `Set.prototype.add`: append the element unless already present. -/
def setAdd (s : List α) (x : α) : List α := if x ∈ s then s else s ++ [x]

/-- Add all elements of `l` to the set `s` in order (the
`array.forEach((node) => set.add(node))` pattern of the source). -/
def setAddAll (s l : List α) : List α := l.foldl setAdd s

/-- `calculateSwapRoute` (src/src/swap.ts lines 41-70).  `pathASet` of the
source is a membership-testing copy of `pathA`, so the `find` predicate is
embedded directly as membership in `pathA`. -/
def calculateSwapRoute (getParent : α → Option α) (fuel : ℕ)
    (fromAddress toAddress rootToken : α) : SwapRoute α :=
  let pathA := getPathToRoot getParent fuel fromAddress
  let pathB := getPathToRoot getParent fuel toAddress
  -- find lowest common ancestor
  let lca := (pathB.find? (fun node => decide (node ∈ pathA))).getD rootToken
  let idxA := jsIndexOf pathA lca
  let idxB := jsIndexOf pathB lca
  -- build highlight set (all nodes on the path)
  let highlightNodes :=
    setAddAll (setAddAll [] (jsSliceTo pathA (idxA + 1))) (jsSliceTo pathB (idxB + 1))
  -- input path: from input up to (not including) LCA
  -- output path: from LCA down to output
  let inputPath := jsSliceTo pathA idxA
  let outputPath := lca :: (jsSliceTo pathB idxB).reverse
  let hops := idxA + idxB
  let rate := FEE_PER_HOP ^ (max hops 0).toNat
  { inputPath := inputPath, outputPath := outputPath,
    highlightNodes := highlightNodes, hops := hops, rate := rate }

/-- `getSwapPath` (src/src/data.ts lines 42-57): full path from `fromToken` to
`toToken` through the tree.  The module-level `ROOT_TOKEN` constant is passed
explicitly as `rootToken`, and the `tokenMeta[...]?.parent ?? null` lookup is
the `getParent` map. -/
def getSwapPath (getParent : α → Option α) (fuel : ℕ)
    (rootToken fromToken toToken : α) : List α :=
  if fromToken = toToken then [fromToken]
  else
    let pathA := getPathToRoot getParent fuel fromToken
    let pathB := getPathToRoot getParent fuel toToken
    let lca := (pathB.find? (fun node => decide (node ∈ pathA))).getD rootToken
    let idxA := jsIndexOf pathA lca
    let idxB := jsIndexOf pathB lca
    let upPath := jsSliceTo pathA (idxA + 1)
    let downPath := (jsSliceTo pathB idxB).reverse
    upPath ++ downPath

/-- Two tokens joined by a parent edge, in either direction. -/
def adjacent (getParent : α → Option α) (x y : α) : Prop :=
  getParent x = some y ∨ getParent y = some x

/-- `TOKEN_DECIMALS` (src/src/config.ts): fixed at 6 for all tokens. -/
def TOKEN_DECIMALS : ℕ := 6

/-- `TickRow` (src/src/data.ts lines 137-142).  `price` is embedded as a
rational, the `bigint` liquidity fields (from non-negative on-chain `uint128`
totals) as naturals. -/
structure TickRow where
  tick : Int
  price : ℚ
  bidLiquidity : ℕ
  askLiquidity : ℕ
deriving DecidableEq

/-- `PairLiquidity` (src/src/data.ts lines 144-153). -/
structure PairLiquidity (α : Type) where
  childToken : α
  parentToken : α
  bestBidTick : Int
  bestAskTick : Int
  midPrice : ℚ
  spreadBps : ℚ
  totalLiquidityUsd : ℚ
  tickRows : List TickRow
deriving DecidableEq

/-- A tick row carrying no liquidity on either side (the trimming condition of
src/src/data.ts lines 336-337 and 345-346). -/
def bothZero (r : TickRow) : Bool := r.askLiquidity == 0 && r.bidLiquidity == 0

/-- The per-row contribution to `totalLiquidityUsd` (src/src/data.ts lines
378-380): bid liquidity is converted to display units and multiplied by the
row's price; ask liquidity is converted to display units only. -/
def rowLiquidityUsd (r : TickRow) : ℚ :=
  ((r.bidLiquidity : ℚ) / 10 ^ TOKEN_DECIMALS) * r.price
    + (r.askLiquidity : ℚ) / 10 ^ TOKEN_DECIMALS

/-- Pure aggregation tail of `fetchPairLiquidity` (src/src/data.ts lines
331-392), taking the fetched `tickResults` (ordered highest tick first) and the
on-chain best bid/ask ticks.  The two index-trimming loops (`startIdx`,
`endIdx`) drop all-zero rows from both ends, which is the double `dropWhile`;
`startIdx > endIdx` (everything zero) is the `none` case, mirroring the
`{ error: "no liquidity" }` return. -/
def fetchPairLiquidityAggregate (childToken parentToken : α)
    (bestBidTick bestAskTick : Int) (tickResults : List TickRow) :
    Option (PairLiquidity α) :=
  let trimmedStart := tickResults.dropWhile bothZero
  let tickRows := (trimmedStart.reverse.dropWhile bothZero).reverse
  if tickRows.isEmpty then none
  else
    let askPrice := match tickRows.head? with | some r => r.price | none => 0
    let bidPrice := match tickRows.getLast? with | some r => r.price | none => 0
    let midPrice :=
      if 1 < tickRows.length then (bidPrice + askPrice) / 2
      else match tickRows.head? with | some r => r.price | none => 0
    let spreadBps :=
      if 1 < tickRows.length ∧ 0 < midPrice then
        ((askPrice - bidPrice) / midPrice) * 10000
      else 0
    let totalBidUsd :=
      (tickRows.map (fun r => ((r.bidLiquidity : ℚ) / 10 ^ TOKEN_DECIMALS) * r.price)).sum
    let totalAskUsd :=
      (tickRows.map (fun r => (r.askLiquidity : ℚ) / 10 ^ TOKEN_DECIMALS)).sum
    some { childToken := childToken, parentToken := parentToken,
           bestBidTick := bestBidTick, bestAskTick := bestAskTick,
           midPrice := midPrice, spreadBps := spreadBps,
           totalLiquidityUsd := totalBidUsd + totalAskUsd, tickRows := tickRows }

/-- Modelled from the spec: the best-bid selection of the pure liquidity
aggregator `computePairLiquidity`, whose implementation is absent from `src/`
(only its unit test is present).  Spec §4.2: "Best bid = the row with the
strictly highest `price` among rows where `bidLiquidity > 0`". -/
def bestBidRow : List TickRow → Option TickRow
  | [] => none
  | r :: rest =>
    match bestBidRow rest with
    | none => if 0 < r.bidLiquidity then some r else none
    | some b => if 0 < r.bidLiquidity ∧ b.price < r.price then some r else some b

/-- Modelled from the spec: the best-ask selection of `computePairLiquidity`
(implementation absent from `src/`).  Spec §4.2: "Best ask = the row with the
strictly lowest `price` among rows where `askLiquidity > 0`". -/
def bestAskRow : List TickRow → Option TickRow
  | [] => none
  | r :: rest =>
    match bestAskRow rest with
    | none => if 0 < r.askLiquidity then some r else none
    | some b => if 0 < r.askLiquidity ∧ r.price < b.price then some r else some b

/-- Modelled from the spec: the reconciliation step of `computePairLiquidity`
(implementation absent from `src/`).  Spec §4.2: "if neither best bid nor best
ask exists, both default to 0 (empty book).  If only one side exists, the
missing side is set equal to the existing side".  Returns
`((bidTick, bidPrice), (askTick, askPrice))`. -/
def reconcileSides (rows : List TickRow) : (Int × ℚ) × (Int × ℚ) :=
  match bestBidRow rows, bestAskRow rows with
  | none, none => ((0, 0), (0, 0))
  | some b, none => ((b.tick, b.price), (b.tick, b.price))
  | none, some a => ((a.tick, a.price), (a.tick, a.price))
  | some b, some a => ((b.tick, b.price), (a.tick, a.price))

/-- Modelled from the spec: the pure liquidity aggregator `computePairLiquidity`
(spec §4.2 `aggregate(tickRows)`, §6 `aggregateLiquidity`); its implementation
is absent from `src/` — only its unit test (`src/unnamed/part_005`) is — so it
is defined here following the spec's rules: best bid/ask selection,
reconciliation, `midPrice = (bestBidPrice + bestAskPrice) / 2`,
`spreadBps = ((bestAskPrice − bestBidPrice) / midPrice) × 10000` (0 if
`midPrice ≤ 0`), and `totalLiquidityUsd` summing bid liquidity in display units
times price plus ask liquidity in display units. -/
def computePairLiquidity (childToken parentToken : α) (tickRows : List TickRow) :
    PairLiquidity α :=
  let sides := reconcileSides tickRows
  let bidPrice := sides.1.2
  let askPrice := sides.2.2
  let midPrice := (bidPrice + askPrice) / 2
  let spreadBps := if 0 < midPrice then ((askPrice - bidPrice) / midPrice) * 10000 else 0
  let total := (tickRows.map rowLiquidityUsd).sum
  { childToken := childToken, parentToken := parentToken,
    bestBidTick := sides.1.1, bestAskTick := sides.2.1,
    midPrice := midPrice, spreadBps := spreadBps,
    totalLiquidityUsd := total, tickRows := tickRows }

/-- The mock token tree of the repository's unit tests
(src/unnamed/part_010 lines 285-300): `ROOT = 0` with children `A = 1` and
`B = 2`; `C = 3` is a child of `A`, `D = 4` a child of `B`. -/
def exampleParent : Fin 5 → Option (Fin 5)
  | 0 => none
  | 1 => some 0
  | 2 => some 0
  | 3 => some 1
  | 4 => some 2

/-- The example tick rows of the aggregator unit test
(src/unnamed/part_005 lines 10-15). -/
def exampleTickRows : List TickRow :=
  [ { tick := -100, price := 99 / 100, bidLiquidity := 2200, askLiquidity := 0 },
    { tick := -50, price := 995 / 1000, bidLiquidity := 1000, askLiquidity := 0 },
    { tick := 0, price := 1, bidLiquidity := 0, askLiquidity := 0 },
    { tick := 50, price := 1005 / 1000, bidLiquidity := 0, askLiquidity := 400 } ]

/-! ## Basic unfolding lemmas for the fuel-indexed walks -/

lemma getPathToRoot_none (gp : α → Option α) (fuel : ℕ) {t : α} (h : gp t = none) :
    getPathToRoot gp fuel t = [t] := by
  unfold getPathToRoot; rw [h]

lemma getPathToRoot_some (gp : α → Option α) (n : ℕ) {t p : α} (h : gp t = some p) :
    getPathToRoot gp (n + 1) t = t :: getPathToRoot gp n p := by
  conv_lhs => rw [getPathToRoot]
  rw [h]

lemma getTokenDepth_none (gp : α → Option α) (fuel : ℕ) {t : α} (h : gp t = none) :
    getTokenDepth gp fuel t = 0 := by
  unfold getTokenDepth; rw [h]

lemma getTokenDepth_some (gp : α → Option α) (n : ℕ) {t p : α} (h : gp t = some p) :
    getTokenDepth gp (n + 1) t = getTokenDepth gp n p + 1 := by
  conv_lhs => rw [getTokenDepth]
  rw [h]

lemma reachesRoot_none (gp : α → Option α) (fuel : ℕ) {t : α} (h : gp t = none) :
    reachesRoot gp fuel t = true := by
  unfold reachesRoot; rw [h]

lemma reachesRoot_zero (gp : α → Option α) {t p : α} (h : gp t = some p) :
    reachesRoot gp 0 t = false := by
  unfold reachesRoot; rw [h]

lemma reachesRoot_succ (gp : α → Option α) (n : ℕ) {t p : α} (h : gp t = some p) :
    reachesRoot gp (n + 1) t = reachesRoot gp n p := by
  conv_lhs => rw [reachesRoot]
  rw [h]

lemma getPathToRoot_cons (gp : α → Option α) (fuel : ℕ) (t : α) :
    ∃ rest, getPathToRoot gp fuel t = t :: rest := by
  cases h : gp t with
  | none => exact ⟨[], getPathToRoot_none gp fuel h⟩
  | some p =>
    cases fuel with
    | zero => exact ⟨[], by unfold getPathToRoot; rw [h]⟩
    | succ n => exact ⟨getPathToRoot gp n p, getPathToRoot_some gp n h⟩

lemma getPathToRoot_head (gp : α → Option α) (fuel : ℕ) (t : α) :
    (getPathToRoot gp fuel t).head? = some t := by
  obtain ⟨rest, hrest⟩ := getPathToRoot_cons gp fuel t
  simp [hrest]

lemma getPathToRoot_ne_nil (gp : α → Option α) (fuel : ℕ) (t : α) :
    getPathToRoot gp fuel t ≠ [] := by
  obtain ⟨rest, hrest⟩ := getPathToRoot_cons gp fuel t
  simp [hrest]

lemma getPathToRoot_self_mem (gp : α → Option α) (fuel : ℕ) (t : α) :
    t ∈ getPathToRoot gp fuel t := by
  obtain ⟨rest, hrest⟩ := getPathToRoot_cons gp fuel t
  simp [hrest]

/-! ## Fuel monotonicity and stability -/

lemma reachesRoot_mono (gp : α → Option α) {f f' : ℕ} {t : α}
    (h : reachesRoot gp f t = true) (hle : f ≤ f') : reachesRoot gp f' t = true := by
  induction f generalizing t f' with
  | zero =>
    cases hgp : gp t with
    | none => exact reachesRoot_none gp f' hgp
    | some p => rw [reachesRoot_zero gp hgp] at h; exact absurd h (by simp)
  | succ n ih =>
    cases hgp : gp t with
    | none => exact reachesRoot_none gp f' hgp
    | some p =>
      rw [reachesRoot_succ gp n hgp] at h
      cases f' with
      | zero => omega
      | succ m =>
        rw [reachesRoot_succ gp m hgp]
        exact ih h (by omega)

lemma getPathToRoot_stable (gp : α → Option α) {f f' : ℕ} {t : α}
    (h : reachesRoot gp f t = true) (hle : f ≤ f') :
    getPathToRoot gp f' t = getPathToRoot gp f t := by
  induction f generalizing t f' with
  | zero =>
    cases hgp : gp t with
    | none => rw [getPathToRoot_none gp f' hgp, getPathToRoot_none gp 0 hgp]
    | some p => rw [reachesRoot_zero gp hgp] at h; exact absurd h (by simp)
  | succ n ih =>
    cases hgp : gp t with
    | none => rw [getPathToRoot_none gp f' hgp, getPathToRoot_none gp (n + 1) hgp]
    | some p =>
      rw [reachesRoot_succ gp n hgp] at h
      cases f' with
      | zero => omega
      | succ m =>
        rw [getPathToRoot_some gp m hgp, getPathToRoot_some gp n hgp, ih h (by omega)]

lemma getTokenDepth_stable (gp : α → Option α) {f f' : ℕ} {t : α}
    (h : reachesRoot gp f t = true) (hle : f ≤ f') :
    getTokenDepth gp f' t = getTokenDepth gp f t := by
  induction f generalizing t f' with
  | zero =>
    cases hgp : gp t with
    | none => rw [getTokenDepth_none gp f' hgp, getTokenDepth_none gp 0 hgp]
    | some p => rw [reachesRoot_zero gp hgp] at h; exact absurd h (by simp)
  | succ n ih =>
    cases hgp : gp t with
    | none => rw [getTokenDepth_none gp f' hgp, getTokenDepth_none gp (n + 1) hgp]
    | some p =>
      rw [reachesRoot_succ gp n hgp] at h
      cases f' with
      | zero => omega
      | succ m =>
        rw [getTokenDepth_some gp m hgp, getTokenDepth_some gp n hgp, ih h (by omega)]

lemma reachesRoot_parent (gp : α → Option α) {f : ℕ} {t p : α}
    (h : reachesRoot gp f t = true) (hgp : gp t = some p) :
    reachesRoot gp f p = true := by
  cases f with
  | zero => rw [reachesRoot_zero gp hgp] at h; exact absurd h (by simp)
  | succ n =>
    rw [reachesRoot_succ gp n hgp] at h
    exact reachesRoot_mono gp h (by omega)

lemma getTokenDepth_parent (gp : α → Option α) {f : ℕ} {t p : α}
    (h : reachesRoot gp f t = true) (hgp : gp t = some p) :
    getTokenDepth gp f t = getTokenDepth gp f p + 1 := by
  cases f with
  | zero => rw [reachesRoot_zero gp hgp] at h; exact absurd h (by simp)
  | succ n =>
    rw [reachesRoot_succ gp n hgp] at h
    rw [getTokenDepth_some gp n hgp, getTokenDepth_stable gp h (Nat.le_succ n)]

lemma getPathToRoot_parent (gp : α → Option α) {f : ℕ} {t p : α}
    (h : reachesRoot gp f t = true) (hgp : gp t = some p) :
    getPathToRoot gp f t = t :: getPathToRoot gp f p := by
  cases f with
  | zero => rw [reachesRoot_zero gp hgp] at h; exact absurd h (by simp)
  | succ n =>
    rw [reachesRoot_succ gp n hgp] at h
    rw [getPathToRoot_some gp n hgp, getPathToRoot_stable gp h (Nat.le_succ n)]

/-! ## jsIndexOf, jsSliceTo, setAddAll, find?, takeWhile helper lemmas -/

lemma jsIndexOf_ge (l : List α) (x : α) : -1 ≤ jsIndexOf l x := by
  induction l with
  | nil => simp [jsIndexOf]
  | cons a rest ih =>
    by_cases hax : a = x
    · simp [jsIndexOf, hax]
    · simp only [jsIndexOf, if_neg hax]
      by_cases hr : jsIndexOf rest x = -1 <;> simp [hr] <;> omega

lemma jsIndexOf_nonneg (l : List α) {x : α} (h : x ∈ l) : 0 ≤ jsIndexOf l x := by
  induction l with
  | nil => simp at h
  | cons a rest ih =>
    by_cases hax : a = x
    · simp [jsIndexOf, hax]
    · have hx : x ∈ rest := by
        rcases List.mem_cons.mp h with h' | h'
        · exact absurd h'.symm hax
        · exact h'
      have h0 := ih hx
      simp only [jsIndexOf, if_neg hax]
      have hne : jsIndexOf rest x ≠ -1 := by omega
      simp [hne]; omega

lemma jsIndexOf_cons_self (l : List α) (x : α) : jsIndexOf (x :: l) x = 0 := by
  simp [jsIndexOf]

lemma jsIndexOf_append (pre l2 : List α) {x : α} (hpre : x ∉ pre) (hx : x ∈ l2) :
    jsIndexOf (pre ++ l2) x = pre.length + jsIndexOf l2 x := by
  induction pre with
  | nil => simp
  | cons a pre ih =>
    have hax : a ≠ x := by intro h; exact hpre (by simp [h])
    have hpre' : x ∉ pre := fun h => hpre (by simp [h])
    have hrec := ih hpre'
    have h0 : 0 ≤ jsIndexOf (pre ++ l2) x := jsIndexOf_nonneg _ (by simp [hx])
    have hne : jsIndexOf (pre ++ l2) x ≠ -1 := by omega
    simp only [List.cons_append, jsIndexOf, if_neg hax]
    rw [if_neg (by simpa using hne)]
    rw [show (pre.append l2) = pre ++ l2 from rfl, hrec, List.length_cons]
    push_cast
    ring

lemma jsIndexOf_get (l : List α) {x : α} (h : x ∈ l) :
    l.get? (jsIndexOf l x).toNat = some x := by
  induction l with
  | nil => simp at h
  | cons a rest ih =>
    by_cases hax : a = x
    · simp [jsIndexOf, hax]
    · have hx : x ∈ rest := by
        rcases List.mem_cons.mp h with h' | h'
        · exact absurd h'.symm hax
        · exact h'
      have h0 := jsIndexOf_nonneg rest hx
      have hne : jsIndexOf rest x ≠ -1 := by omega
      simp only [jsIndexOf, if_neg hax, hne, if_false]
      have : (jsIndexOf rest x + 1).toNat = (jsIndexOf rest x).toNat + 1 := by omega
      rw [this]
      simpa using ih hx

lemma jsIndexOf_inj {l : List α} {x y : α} (hx : x ∈ l) (hy : y ∈ l)
    (h : jsIndexOf l x = jsIndexOf l y) : x = y := by
  have h1 := jsIndexOf_get l hx
  have h2 := jsIndexOf_get l hy
  rw [h] at h1
  rw [h1] at h2
  exact Option.some_injective _ h2

lemma jsSliceTo_nonneg (l : List α) {e : Int} (he : 0 ≤ e) :
    jsSliceTo l e = l.take e.toNat := by
  unfold jsSliceTo
  have hlt : ¬ e < 0 := by omega
  simp only [if_neg hlt]
  rcases le_total e (l.length : Int) with hle | hle
  · congr 1
    omega
  · have h1 : min e (l.length : Int) = (l.length : Int) := by omega
    rw [h1]
    rw [List.take_of_length_le (by omega), List.take_of_length_le (by omega)]

lemma setAdd_mem (s : List α) (x y : α) : y ∈ setAdd s x ↔ y ∈ s ∨ y = x := by
  unfold setAdd
  by_cases h : x ∈ s
  · simp only [if_pos h]
    constructor
    · exact fun hy => Or.inl hy
    · rintro (hy | rfl)
      · exact hy
      · exact h
  · simp [if_neg h]

lemma setAddAll_mem (s l : List α) (y : α) : y ∈ setAddAll s l ↔ y ∈ s ∨ y ∈ l := by
  induction l generalizing s with
  | nil => simp [setAddAll]
  | cons a rest ih =>
    show y ∈ setAddAll (setAdd s a) rest ↔ _
    rw [ih, setAdd_mem]
    simp [or_assoc]

lemma find?_decomp {p : α → Bool} {l : List α} {a : α} (h : l.find? p = some a) :
    ∃ pre post, l = pre ++ a :: post ∧ (∀ x ∈ pre, p x = false) ∧ p a = true := by
  induction l with
  | nil => simp at h
  | cons b rest ih =>
    by_cases hb : p b
    · rw [List.find?_cons_of_pos _ hb] at h
      obtain rfl : b = a := by injection h
      exact ⟨[], rest, by simp, by simp, hb⟩
    · rw [List.find?_cons_of_neg _ (by simpa using hb)] at h
      obtain ⟨pre, post, hl, hpre, hpa⟩ := ih h
      exact ⟨b :: pre, post, by simp [hl], by
        intro x hx
        rcases List.mem_cons.mp hx with rfl | hx
        · simpa using hb
        · exact hpre x hx, hpa⟩

lemma takeWhile_ne_of_decomp (pre post : List α) {y : α} (h : y ∉ pre) :
    (pre ++ y :: post).takeWhile (fun x => decide (x ≠ y)) = pre := by
  induction pre with
  | nil => simp
  | cons a pre ih =>
    have hay : a ≠ y := fun hh => h (by simp [hh])
    have h' : y ∉ pre := fun hh => h (by simp [hh])
    simp only [List.cons_append, List.takeWhile_cons, decide_eq_true_eq]
    rw [if_pos hay, ih h']

/-! ## Structural facts about the root path -/

lemma getPathToRoot_length (gp : α → Option α) {f : ℕ} {t : α}
    (h : reachesRoot gp f t = true) :
    (getPathToRoot gp f t).length = getTokenDepth gp f t + 1 := by
  induction f generalizing t with
  | zero =>
    cases hgp : gp t with
    | none => rw [getPathToRoot_none gp 0 hgp, getTokenDepth_none gp 0 hgp]; rfl
    | some p => rw [reachesRoot_zero gp hgp] at h; exact absurd h (by simp)
  | succ n ih =>
    cases hgp : gp t with
    | none =>
      rw [getPathToRoot_none gp (n + 1) hgp, getTokenDepth_none gp (n + 1) hgp]; rfl
    | some p =>
      rw [reachesRoot_succ gp n hgp] at h
      rw [getPathToRoot_some gp n hgp, getTokenDepth_some gp n hgp]
      simp [ih h]

lemma getPathToRoot_getLast (gp : α → Option α) {f : ℕ} {t : α}
    (h : reachesRoot gp f t = true) :
    ∃ r, (getPathToRoot gp f t).getLast? = some r ∧ gp r = none := by
  induction f generalizing t with
  | zero =>
    cases hgp : gp t with
    | none => exact ⟨t, by rw [getPathToRoot_none gp 0 hgp]; simp, hgp⟩
    | some p => rw [reachesRoot_zero gp hgp] at h; exact absurd h (by simp)
  | succ n ih =>
    cases hgp : gp t with
    | none => exact ⟨t, by rw [getPathToRoot_none gp (n + 1) hgp]; simp, hgp⟩
    | some p =>
      rw [reachesRoot_succ gp n hgp] at h
      obtain ⟨r, hr, hgpr⟩ := ih h
      refine ⟨r, ?_, hgpr⟩
      rw [getPathToRoot_some gp n hgp, List.getLast?_cons, hr]
      rfl

lemma getPathToRoot_chain (gp : α → Option α) (f : ℕ) (t : α) :
    List.Chain' (fun x y => gp x = some y) (getPathToRoot gp f t) := by
  induction f generalizing t with
  | zero =>
    cases hgp : gp t with
    | none => rw [getPathToRoot_none gp 0 hgp]; exact List.chain'_singleton t
    | some p =>
      have : getPathToRoot gp 0 t = [t] := by unfold getPathToRoot; rw [hgp]
      rw [this]; exact List.chain'_singleton t
  | succ n ih =>
    cases hgp : gp t with
    | none => rw [getPathToRoot_none gp (n + 1) hgp]; exact List.chain'_singleton t
    | some p =>
      rw [getPathToRoot_some gp n hgp]
      rw [List.chain'_cons']
      refine ⟨?_, ih p⟩
      intro y hy
      rw [getPathToRoot_head gp n p] at hy
      obtain rfl : p = y := by injection hy
      exact hgp

lemma getPathToRoot_suffix (gp : α → Option α) {f : ℕ} {t y : α}
    (h : reachesRoot gp f t = true) (hy : y ∈ getPathToRoot gp f t) :
    reachesRoot gp f y = true ∧ getPathToRoot gp f y <:+ getPathToRoot gp f t := by
  induction f generalizing t with
  | zero =>
    cases hgp : gp t with
    | none =>
      rw [getPathToRoot_none gp 0 hgp] at hy
      obtain rfl : y = t := by simpa using hy
      exact ⟨h, List.suffix_refl _⟩
    | some p => rw [reachesRoot_zero gp hgp] at h; exact absurd h (by simp)
  | succ n ih =>
    cases hgp : gp t with
    | none =>
      rw [getPathToRoot_none gp (n + 1) hgp] at hy
      obtain rfl : y = t := by simpa using hy
      exact ⟨h, List.suffix_refl _⟩
    | some p =>
      have hstep := h
      rw [reachesRoot_succ gp n hgp] at hstep
      rw [getPathToRoot_some gp n hgp] at hy
      rcases List.mem_cons.mp hy with rfl | hy'
      · exact ⟨h, List.suffix_refl _⟩
      · obtain ⟨hry, hsuf⟩ := ih hstep hy'
        refine ⟨reachesRoot_mono gp hry (Nat.le_succ n), ?_⟩
        rw [getPathToRoot_stable gp hry (Nat.le_succ n), getPathToRoot_some gp n hgp]
        exact hsuf.trans (List.suffix_cons t _)

lemma getPathToRoot_nodup (gp : α → Option α) {f : ℕ} {t : α}
    (h : reachesRoot gp f t = true) : (getPathToRoot gp f t).Nodup := by
  induction f generalizing t with
  | zero =>
    cases hgp : gp t with
    | none => rw [getPathToRoot_none gp 0 hgp]; simp
    | some p => rw [reachesRoot_zero gp hgp] at h; exact absurd h (by simp)
  | succ n ih =>
    cases hgp : gp t with
    | none => rw [getPathToRoot_none gp (n + 1) hgp]; simp
    | some p =>
      have hstep := h
      rw [reachesRoot_succ gp n hgp] at hstep
      rw [getPathToRoot_some gp n hgp]
      refine List.nodup_cons.mpr ⟨?_, ih hstep⟩
      intro ht
      obtain ⟨hrt, hsuf⟩ := getPathToRoot_suffix gp hstep ht
      have hlen := hsuf.length_le
      rw [getPathToRoot_length gp hrt, getPathToRoot_length gp hstep] at hlen
      have hdt : getTokenDepth gp n t = getTokenDepth gp n p + 1 :=
        getTokenDepth_parent gp hrt hgp
      omega

lemma getPathToRoot_mem_index (gp : α → Option α) {f : ℕ} {t y : α}
    (h : reachesRoot gp f t = true) (hy : y ∈ getPathToRoot gp f t) :
    getTokenDepth gp f y ≤ getTokenDepth gp f t ∧
    jsIndexOf (getPathToRoot gp f t) y
      = ((getTokenDepth gp f t - getTokenDepth gp f y : ℕ) : ℤ) := by
  obtain ⟨hry, hsuf⟩ := getPathToRoot_suffix gp h hy
  obtain ⟨pre, hpre⟩ := hsuf
  have hlt : (getPathToRoot gp f t).length = getTokenDepth gp f t + 1 :=
    getPathToRoot_length gp h
  have hly : (getPathToRoot gp f y).length = getTokenDepth gp f y + 1 :=
    getPathToRoot_length gp hry
  have hlen : pre.length + (getTokenDepth gp f y + 1) = getTokenDepth gp f t + 1 := by
    rw [← hly, ← hlt, ← hpre]
    simp
  have hdep : getTokenDepth gp f y ≤ getTokenDepth gp f t := by omega
  refine ⟨hdep, ?_⟩
  have hnodup : (getPathToRoot gp f t).Nodup := getPathToRoot_nodup gp h
  rw [← hpre] at hnodup
  have hdisj := (List.nodup_append.mp hnodup).2.2
  have hynpre : y ∉ pre := fun hmem => hdisj hmem (getPathToRoot_self_mem gp f y)
  obtain ⟨rest, hrest⟩ := getPathToRoot_cons gp f y
  rw [← hpre, hrest]
  rw [jsIndexOf_append pre (y :: rest) hynpre (by simp), jsIndexOf_cons_self]
  omega

/-- Core analysis of the LCA search shared by `calculateSwapRoute` and
`getSwapPath`: for two tokens of the same (acyclic, single-rooted) tree, the
`find?` over the destination's root path succeeds, and the found node is the
deepest common element of the two root paths; its index in either root path is
the depth difference. -/
lemma lca_spec (gp : α → Option α) {f : ℕ} {a b : α}
    (hfa : reachesRoot gp f a = true) (hfb : reachesRoot gp f b = true)
    (hsame : (getPathToRoot gp f a).getLast? = (getPathToRoot gp f b).getLast?) :
    ∃ l0 preA postA preB postB,
      (getPathToRoot gp f b).find?
          (fun node => decide (node ∈ getPathToRoot gp f a)) = some l0
      ∧ l0 ∈ getPathToRoot gp f a ∧ l0 ∈ getPathToRoot gp f b
      ∧ (∀ x, x ∈ getPathToRoot gp f a → x ∈ getPathToRoot gp f b →
          getTokenDepth gp f x ≤ getTokenDepth gp f l0)
      ∧ jsIndexOf (getPathToRoot gp f a) l0
          = ((getTokenDepth gp f a - getTokenDepth gp f l0 : ℕ) : ℤ)
      ∧ jsIndexOf (getPathToRoot gp f b) l0
          = ((getTokenDepth gp f b - getTokenDepth gp f l0 : ℕ) : ℤ)
      ∧ getTokenDepth gp f l0 ≤ getTokenDepth gp f a
      ∧ getTokenDepth gp f l0 ≤ getTokenDepth gp f b
      ∧ getPathToRoot gp f a = preA ++ l0 :: postA ∧ l0 ∉ preA
      ∧ preA.length = getTokenDepth gp f a - getTokenDepth gp f l0
      ∧ getPathToRoot gp f b = preB ++ l0 :: postB
      ∧ (∀ x ∈ preB, x ∉ getPathToRoot gp f a) ∧ l0 ∉ preB
      ∧ preB.length = getTokenDepth gp f b - getTokenDepth gp f l0 := by
  obtain ⟨r, hra, hgpr⟩ := getPathToRoot_getLast gp hfa
  have hrb : (getPathToRoot gp f b).getLast? = some r := by rw [← hsame, hra]
  have hrmemA : r ∈ getPathToRoot gp f a := List.mem_of_getLast?_eq_some hra
  have hrmemB : r ∈ getPathToRoot gp f b := List.mem_of_getLast?_eq_some hrb
  have hfindsome : ((getPathToRoot gp f b).find?
      (fun node => decide (node ∈ getPathToRoot gp f a))).isSome := by
    rw [List.find?_isSome]
    exact ⟨r, hrmemB, by simpa using hrmemA⟩
  obtain ⟨l0, hfind⟩ := Option.isSome_iff_exists.mp hfindsome
  obtain ⟨preB, postB, hBdec, hpreB, hl0A'⟩ := find?_decomp hfind
  have hl0A : l0 ∈ getPathToRoot gp f a := by simpa using hl0A'
  have hl0B : l0 ∈ getPathToRoot gp f b := by rw [hBdec]; simp
  have hpreBnA : ∀ x ∈ preB, x ∉ getPathToRoot gp f a := by
    intro x hx
    have := hpreB x hx
    simpa using this
  have hl0npreB : l0 ∉ preB := fun hmem => hpreBnA l0 hmem hl0A
  obtain ⟨hdepA, hidxA⟩ := getPathToRoot_mem_index gp hfa hl0A
  obtain ⟨hdepB, hidxB⟩ := getPathToRoot_mem_index gp hfb hl0B
  -- decomposition of pathA at l0
  obtain ⟨hrl0, hsufA⟩ := getPathToRoot_suffix gp hfa hl0A
  obtain ⟨preA, hpreA⟩ := hsufA
  obtain ⟨postA, hpostA⟩ := getPathToRoot_cons gp f l0
  have hAdec : getPathToRoot gp f a = preA ++ l0 :: postA := by
    rw [← hpreA, hpostA]
  have hl0npreA : l0 ∉ preA := by
    have hnodup : (getPathToRoot gp f a).Nodup := getPathToRoot_nodup gp hfa
    rw [hAdec] at hnodup
    have hdisj := (List.nodup_append.mp hnodup).2.2
    exact fun hmem => hdisj hmem (by simp)
  have hlenA : preA.length = getTokenDepth gp f a - getTokenDepth gp f l0 := by
    have h1 : (getPathToRoot gp f a).length = getTokenDepth gp f a + 1 :=
      getPathToRoot_length gp hfa
    have h2 : (getPathToRoot gp f l0).length = getTokenDepth gp f l0 + 1 :=
      getPathToRoot_length gp hrl0
    have h3 : preA.length + (getPathToRoot gp f l0).length
        = (getPathToRoot gp f a).length := by rw [← hpreA]; simp
    omega
  have hlenB : preB.length = getTokenDepth gp f b - getTokenDepth gp f l0 := by
    have h1 : jsIndexOf (getPathToRoot gp f b) l0 = (preB.length : ℤ) := by
      rw [hBdec, jsIndexOf_append preB (l0 :: postB) hl0npreB (by simp),
        jsIndexOf_cons_self]
      omega
    rw [h1] at hidxB
    omega
  refine ⟨l0, preA, postA, preB, postB, hfind, hl0A, hl0B, ?_, hidxA, hidxB,
    hdepA, hdepB, hAdec, hl0npreA, hlenA, hBdec, hpreBnA, hl0npreB, hlenB⟩
  -- l0 is the deepest common element
  intro x hxA hxB
  obtain ⟨hdx, hix⟩ := getPathToRoot_mem_index gp hfb hxB
  have hxnpreB : x ∉ preB := fun hmem => hpreBnA x hmem hxA
  have hxtail : x ∈ l0 :: postB := by
    rw [hBdec] at hxB
    rcases List.mem_append.mp hxB with hmem | hmem
    · exact absurd hmem hxnpreB
    · exact hmem
  have hsplit : jsIndexOf (getPathToRoot gp f b) x
      = (preB.length : ℤ) + jsIndexOf (l0 :: postB) x := by
    rw [hBdec, jsIndexOf_append preB (l0 :: postB) hxnpreB hxtail]
  have hnn : 0 ≤ jsIndexOf (l0 :: postB) x := jsIndexOf_nonneg _ hxtail
  rw [hix] at hsplit
  omega

/-- Any two deepest common elements of the two root paths coincide. -/
lemma deepest_common_unique (gp : α → Option α) {f : ℕ} {a b l1 l2 : α}
    (hfa : reachesRoot gp f a = true)
    (h1A : l1 ∈ getPathToRoot gp f a) (h1B : l1 ∈ getPathToRoot gp f b)
    (h2A : l2 ∈ getPathToRoot gp f a) (h2B : l2 ∈ getPathToRoot gp f b)
    (hd1 : ∀ x, x ∈ getPathToRoot gp f a → x ∈ getPathToRoot gp f b →
      getTokenDepth gp f x ≤ getTokenDepth gp f l1)
    (hd2 : ∀ x, x ∈ getPathToRoot gp f a → x ∈ getPathToRoot gp f b →
      getTokenDepth gp f x ≤ getTokenDepth gp f l2) : l1 = l2 := by
  have hdep : getTokenDepth gp f l1 = getTokenDepth gp f l2 :=
    le_antisymm (hd2 l1 h1A h1B) (hd1 l2 h2A h2B)
  obtain ⟨hle1, hidx1⟩ := getPathToRoot_mem_index gp hfa h1A
  obtain ⟨hle2, hidx2⟩ := getPathToRoot_mem_index gp hfa h2A
  apply jsIndexOf_inj h1A h2A
  rw [hidx1, hidx2, hdep]

/-- Full evaluation of `calculateSwapRoute` on two tokens of one (acyclic,
single-rooted) tree, in terms of the deepest common element `l0` of the two
root paths. -/
lemma calculateSwapRoute_eq (gp : α → Option α) {f : ℕ} {a b : α} (root : α)
    (hfa : reachesRoot gp f a = true) (hfb : reachesRoot gp f b = true)
    (hsame : (getPathToRoot gp f a).getLast? = (getPathToRoot gp f b).getLast?) :
    ∃ l0, l0 ∈ getPathToRoot gp f a ∧ l0 ∈ getPathToRoot gp f b
      ∧ (∀ x, x ∈ getPathToRoot gp f a → x ∈ getPathToRoot gp f b →
          getTokenDepth gp f x ≤ getTokenDepth gp f l0)
      ∧ calculateSwapRoute gp f a b root =
        { inputPath := (getPathToRoot gp f a).take
            (getTokenDepth gp f a - getTokenDepth gp f l0),
          outputPath := l0 :: ((getPathToRoot gp f b).take
            (getTokenDepth gp f b - getTokenDepth gp f l0)).reverse,
          highlightNodes := setAddAll
            (setAddAll [] ((getPathToRoot gp f a).take
              (getTokenDepth gp f a - getTokenDepth gp f l0 + 1)))
            ((getPathToRoot gp f b).take
              (getTokenDepth gp f b - getTokenDepth gp f l0 + 1)),
          hops := ((getTokenDepth gp f a - getTokenDepth gp f l0 : ℕ) : ℤ)
            + ((getTokenDepth gp f b - getTokenDepth gp f l0 : ℕ) : ℤ),
          rate := FEE_PER_HOP ^ ((getTokenDepth gp f a - getTokenDepth gp f l0)
            + (getTokenDepth gp f b - getTokenDepth gp f l0)) }
      ∧ (getPathToRoot gp f a).take (getTokenDepth gp f a - getTokenDepth gp f l0)
          = (getPathToRoot gp f a).takeWhile (fun x => decide (x ≠ l0))
      ∧ (getPathToRoot gp f b).take (getTokenDepth gp f b - getTokenDepth gp f l0)
          = (getPathToRoot gp f b).takeWhile (fun x => decide (x ≠ l0))
      ∧ getTokenDepth gp f l0 ≤ getTokenDepth gp f a
      ∧ getTokenDepth gp f l0 ≤ getTokenDepth gp f b := by
  obtain ⟨l0, preA, postA, preB, postB, hfind, hl0A, hl0B, hdeep, hidxA, hidxB,
    hdA, hdB, hAdec, hl0npreA, hlenA, hBdec, hpreBnA, hl0npreB, hlenB⟩ :=
    lca_spec gp hfa hfb hsame
  set da := getTokenDepth gp f a with hda
  set db := getTokenDepth gp f b with hdb
  set dl0 := getTokenDepth gp f l0 with hdl0
  have htwA : (getPathToRoot gp f a).take (da - dl0)
      = (getPathToRoot gp f a).takeWhile (fun x => decide (x ≠ l0)) := by
    rw [hAdec, List.take_left' hlenA, takeWhile_ne_of_decomp preA postA hl0npreA]
  have htwB : (getPathToRoot gp f b).take (db - dl0)
      = (getPathToRoot gp f b).takeWhile (fun x => decide (x ≠ l0)) := by
    have hlenB' : preB.length = db - dl0 := hlenB
    rw [hBdec, List.take_left' hlenB', takeWhile_ne_of_decomp preB postB hl0npreB]
  refine ⟨l0, hl0A, hl0B, hdeep, ?_, htwA, htwB, hdA, hdB⟩
  have hsliceA : jsSliceTo (getPathToRoot gp f a) (jsIndexOf (getPathToRoot gp f a) l0)
      = (getPathToRoot gp f a).take (da - dl0) := by
    rw [hidxA, jsSliceTo_nonneg _ (by positivity), Int.toNat_natCast]
  have hsliceB : jsSliceTo (getPathToRoot gp f b) (jsIndexOf (getPathToRoot gp f b) l0)
      = (getPathToRoot gp f b).take (db - dl0) := by
    rw [hidxB, jsSliceTo_nonneg _ (by positivity), Int.toNat_natCast]
  have hsliceA1 : jsSliceTo (getPathToRoot gp f a)
      (jsIndexOf (getPathToRoot gp f a) l0 + 1)
      = (getPathToRoot gp f a).take (da - dl0 + 1) := by
    rw [hidxA, show ((da - dl0 : ℕ) : ℤ) + 1 = ((da - dl0 + 1 : ℕ) : ℤ) by push_cast; ring,
      jsSliceTo_nonneg _ (by positivity), Int.toNat_natCast]
  have hsliceB1 : jsSliceTo (getPathToRoot gp f b)
      (jsIndexOf (getPathToRoot gp f b) l0 + 1)
      = (getPathToRoot gp f b).take (db - dl0 + 1) := by
    rw [hidxB, show ((db - dl0 : ℕ) : ℤ) + 1 = ((db - dl0 + 1 : ℕ) : ℤ) by push_cast; ring,
      jsSliceTo_nonneg _ (by positivity), Int.toNat_natCast]
  have hrate : (max (jsIndexOf (getPathToRoot gp f a) l0
      + jsIndexOf (getPathToRoot gp f b) l0) 0).toNat
      = (da - dl0) + (db - dl0) := by
    rw [hidxA, hidxB]
    omega
  simp only [calculateSwapRoute, hfind, Option.getD_some]
  rw [hsliceA, hsliceB, hsliceA1, hsliceB1, hrate, hidxA, hidxB]

/-! ## Claim theorems: token-tree router -/

/-- C1: for every acyclic parent map forming a single-rooted tree (both walks
terminate and the two root paths end at the same root) and any two tokens `a`,
`b` in that tree, `calculateSwapRoute(a, b, root, getParent).hops` equals
`getTokenDepth a + getTokenDepth b - 2 * getTokenDepth (lca a b)`, where the
LCA is characterised as the deepest common element of the two root paths. -/
theorem claim_C1_route_hops (gp : α → Option α) (f : ℕ) (a b root l : α)
    (hfa : reachesRoot gp f a = true) (hfb : reachesRoot gp f b = true)
    (hsame : (getPathToRoot gp f a).getLast? = (getPathToRoot gp f b).getLast?)
    (hlA : l ∈ getPathToRoot gp f a) (hlB : l ∈ getPathToRoot gp f b)
    (hdeep : ∀ x, x ∈ getPathToRoot gp f a → x ∈ getPathToRoot gp f b →
      getTokenDepth gp f x ≤ getTokenDepth gp f l) :
    (calculateSwapRoute gp f a b root).hops
      = (getTokenDepth gp f a : ℤ) + (getTokenDepth gp f b : ℤ)
        - 2 * (getTokenDepth gp f l : ℤ) := by
  obtain ⟨l0, hl0A, hl0B, hdeep0, heq, _, _, hdA, hdB⟩ :=
    calculateSwapRoute_eq gp root hfa hfb hsame
  have hdep : getTokenDepth gp f l = getTokenDepth gp f l0 :=
    le_antisymm (hdeep0 l hlA hlB) (hdeep l0 hl0A hl0B)
  rw [heq]
  dsimp only
  omega

/-- Witness for C1 on the repository's mock tree: route from `C = 3` to
`D = 4`, LCA `ROOT = 0`. -/
theorem claim_C1_witness :
    (calculateSwapRoute exampleParent 10 3 4 0).hops
      = (getTokenDepth exampleParent 10 3 : ℤ) + (getTokenDepth exampleParent 10 4 : ℤ)
        - 2 * (getTokenDepth exampleParent 10 0 : ℤ) :=
  claim_C1_route_hops exampleParent 10 3 4 0 0 (by decide) (by decide) (by decide)
    (by decide) (by decide) (by decide)

/-- C2: for every acyclic single-rooted parent map and tokens `source`,
`destination`, `calculateSwapRoute` returns `inputPath` equal to the source's
root path truncated to exclude the LCA, and `outputPath` equal to the LCA
followed by the destination's root path truncated before the LCA, reversed
(the truncation before the LCA being `takeWhile (· ≠ lca)`).  The concrete
example of the claim (`inputPath = [C, A]`, `outputPath = [ROOT, B, D]`,
`hops = 4` on the mock tree) is instantiated in the witness. -/
theorem claim_C2_route_paths (gp : α → Option α) (f : ℕ) (a b root l : α)
    (hfa : reachesRoot gp f a = true) (hfb : reachesRoot gp f b = true)
    (hsame : (getPathToRoot gp f a).getLast? = (getPathToRoot gp f b).getLast?)
    (hlA : l ∈ getPathToRoot gp f a) (hlB : l ∈ getPathToRoot gp f b)
    (hdeep : ∀ x, x ∈ getPathToRoot gp f a → x ∈ getPathToRoot gp f b →
      getTokenDepth gp f x ≤ getTokenDepth gp f l) :
    (calculateSwapRoute gp f a b root).inputPath
      = (getPathToRoot gp f a).takeWhile (fun x => decide (x ≠ l))
    ∧ (calculateSwapRoute gp f a b root).outputPath
      = l :: ((getPathToRoot gp f b).takeWhile (fun x => decide (x ≠ l))).reverse := by
  obtain ⟨l0, hl0A, hl0B, hdeep0, heq, htwA, htwB, hdA, hdB⟩ :=
    calculateSwapRoute_eq gp root hfa hfb hsame
  obtain rfl : l = l0 :=
    deepest_common_unique gp hfa hlA hlB hl0A hl0B hdeep hdeep0
  rw [heq]
  dsimp only
  rw [htwA, htwB]
  exact ⟨rfl, rfl⟩

/-- Witness for C2, the concrete example of the claim: on the mock tree
(`ROOT = 0 ← A = 1, B = 2; A ← C = 3; B ← D = 4`), the route from `C` to `D`
has `inputPath = [C, A]`, `outputPath = [ROOT, B, D]` and `hops = 4`. -/
theorem claim_C2_witness :
    (calculateSwapRoute exampleParent 10 3 4 0).inputPath = [3, 1]
    ∧ (calculateSwapRoute exampleParent 10 3 4 0).outputPath = [0, 2, 4]
    ∧ (calculateSwapRoute exampleParent 10 3 4 0).hops = 4 := by
  have h := claim_C2_route_paths exampleParent 10 3 4 0 0 (by decide) (by decide)
    (by decide) (by decide) (by decide) (by decide)
  refine ⟨?_, ?_, by decide⟩
  · rw [h.1]; decide
  · rw [h.2]; decide

/-- C5: for every acyclic single-rooted parent map and any two tokens `a`, `b`,
the hop count of `calculateSwapRoute` is the same in both directions, and the
`highlightNodes` sets of the two directions are equal as sets. -/
theorem claim_C5_route_symm (gp : α → Option α) (f : ℕ) (a b root : α)
    (hfa : reachesRoot gp f a = true) (hfb : reachesRoot gp f b = true)
    (hsame : (getPathToRoot gp f a).getLast? = (getPathToRoot gp f b).getLast?) :
    (calculateSwapRoute gp f a b root).hops = (calculateSwapRoute gp f b a root).hops
    ∧ ∀ x, x ∈ (calculateSwapRoute gp f a b root).highlightNodes
        ↔ x ∈ (calculateSwapRoute gp f b a root).highlightNodes := by
  obtain ⟨l0, hl0A, hl0B, hdeep0, heq, _, _, hdA, hdB⟩ :=
    calculateSwapRoute_eq gp root hfa hfb hsame
  obtain ⟨l1, hl1B, hl1A, hdeep1, heq', _, _, hdB', hdA'⟩ :=
    calculateSwapRoute_eq gp root hfb hfa hsame.symm
  obtain rfl : l0 = l1 :=
    deepest_common_unique gp hfa hl0A hl0B hl1A hl1B hdeep0
      (fun x hxA hxB => hdeep1 x hxB hxA)
  rw [heq, heq']
  dsimp only
  constructor
  · omega
  · intro x
    rw [setAddAll_mem, setAddAll_mem, setAddAll_mem, setAddAll_mem]
    simp only [List.not_mem_nil, false_or]
    tauto

/-- Witness for C5 on the mock tree: route `C = 3` to `D = 4` versus the
reverse direction. -/
theorem claim_C5_witness :
    (calculateSwapRoute exampleParent 10 3 4 0).hops
      = (calculateSwapRoute exampleParent 10 4 3 0).hops
    ∧ (1 ∈ (calculateSwapRoute exampleParent 10 3 4 0).highlightNodes
        ↔ 1 ∈ (calculateSwapRoute exampleParent 10 4 3 0).highlightNodes) :=
  have h := claim_C5_route_symm exampleParent 10 3 4 0 (by decide) (by decide) (by decide)
  ⟨h.1, h.2 1⟩

/-- C3: for every token `t` of an acyclic single-rooted parent map (`r` being
the unique parentless token), `getPathToRoot t` begins with `t`, ends at `r`,
and has length `getTokenDepth t + 1`. -/
theorem claim_C3_path_to_root (gp : α → Option α) (f : ℕ) (t r : α)
    (hf : reachesRoot gp f t = true)
    (hr : gp r = none) (huniq : ∀ x, gp x = none → x = r) :
    (getPathToRoot gp f t).head? = some t
    ∧ (getPathToRoot gp f t).getLast? = some r
    ∧ (getPathToRoot gp f t).length = getTokenDepth gp f t + 1 := by
  refine ⟨getPathToRoot_head gp f t, ?_, getPathToRoot_length gp hf⟩
  obtain ⟨r', hr', hgpr'⟩ := getPathToRoot_getLast gp hf
  rw [hr', huniq r' hgpr']

/-- Witness for C3 on the mock tree: the path from `C = 3` is `[3, 1, 0]`,
ending at the unique root `0`, of length depth + 1 = 3. -/
theorem claim_C3_witness :
    (getPathToRoot exampleParent 10 3).head? = some 3
    ∧ (getPathToRoot exampleParent 10 3).getLast? = some 0
    ∧ (getPathToRoot exampleParent 10 3).length = getTokenDepth exampleParent 10 3 + 1 :=
  claim_C3_path_to_root exampleParent 10 3 0 (by decide) (by decide) (by decide)

/-- C4: for every parent map and every pair of tokens, the returned `rate`
equals `FEE_PER_HOP ^ max(hops, 0)` exactly; and a same-token route has
`hops = 0` and `rate = 1`.  (No acyclicity hypothesis is needed: the first
part is intrinsic to the computation, and a same-token route always finds the
token itself as LCA at index 0 of both paths.) -/
theorem claim_C4_rate (gp : α → Option α) (f : ℕ) (a b root : α) :
    (calculateSwapRoute gp f a b root).rate
      = FEE_PER_HOP ^ (max (calculateSwapRoute gp f a b root).hops 0).toNat
    ∧ (calculateSwapRoute gp f a a root).hops = 0
    ∧ (calculateSwapRoute gp f a a root).rate = 1 := by
  have hfind : (getPathToRoot gp f a).find?
      (fun node => decide (node ∈ getPathToRoot gp f a)) = some a := by
    obtain ⟨rest, hrest⟩ := getPathToRoot_cons gp f a
    rw [hrest, List.find?_cons_of_pos]
    simp [← hrest, getPathToRoot_self_mem gp f a]
  have hidx : jsIndexOf (getPathToRoot gp f a) a = 0 := by
    obtain ⟨rest, hrest⟩ := getPathToRoot_cons gp f a
    rw [hrest, jsIndexOf_cons_self]
  refine ⟨rfl, ?_, ?_⟩
  · simp only [calculateSwapRoute, hfind, Option.getD_some, hidx]
    norm_num
  · simp only [calculateSwapRoute, hfind, Option.getD_some, hidx]
    norm_num

/-- Witness for C4: the FEE_PER_HOP-power law at the sibling route `A` to `B`,
and the same-token route at `A`. -/
theorem claim_C4_witness :
    (calculateSwapRoute exampleParent 10 1 2 0).rate
      = FEE_PER_HOP ^ (max (calculateSwapRoute exampleParent 10 1 2 0).hops 0).toNat
    ∧ (calculateSwapRoute exampleParent 10 1 1 0).hops = 0
    ∧ (calculateSwapRoute exampleParent 10 1 1 0).rate = 1 :=
  claim_C4_rate exampleParent 10 1 2 0

lemma head?_append_cons (pre post1 post2 : List α) (x : α) :
    (pre ++ x :: post1).head? = (pre ++ x :: post2).head? := by
  cases pre <;> simp

/-- C10: for every acyclic single-rooted parent map and any two tokens of the
tree, `getSwapPath` returns a non-empty sequence that begins with the source,
ends with the destination, has no duplicates, and in which every two
consecutive tokens are joined by a parent edge. -/
theorem claim_C10_swap_path (gp : α → Option α) (f : ℕ) (root a b : α)
    (hfa : reachesRoot gp f a = true) (hfb : reachesRoot gp f b = true)
    (hsame : (getPathToRoot gp f a).getLast? = (getPathToRoot gp f b).getLast?) :
    getSwapPath gp f root a b ≠ []
    ∧ (getSwapPath gp f root a b).head? = some a
    ∧ (getSwapPath gp f root a b).getLast? = some b
    ∧ (getSwapPath gp f root a b).Nodup
    ∧ List.Chain' (adjacent gp) (getSwapPath gp f root a b) := by
  by_cases hab : a = b
  · subst hab
    unfold getSwapPath
    rw [if_pos rfl]
    refine ⟨by simp, by simp, by simp, by simp, List.chain'_singleton a⟩
  · obtain ⟨l0, preA, postA, preB, postB, hfind, hl0A, hl0B, hdeep, hidxA, hidxB,
      hdA, hdB, hAdec, hl0npreA, hlenA, hBdec, hpreBnA, hl0npreB, hlenB⟩ :=
      lca_spec gp hfa hfb hsame
    have hpath : getSwapPath gp f root a b = (preA ++ [l0]) ++ preB.reverse := by
      unfold getSwapPath
      rw [if_neg hab]
      simp only [hfind, Option.getD_some]
      have hup : jsSliceTo (getPathToRoot gp f a)
          (jsIndexOf (getPathToRoot gp f a) l0 + 1) = preA ++ [l0] := by
        rw [hidxA, show ((getTokenDepth gp f a - getTokenDepth gp f l0 : ℕ) : ℤ) + 1
            = ((getTokenDepth gp f a - getTokenDepth gp f l0 + 1 : ℕ) : ℤ) by push_cast; ring,
          jsSliceTo_nonneg _ (by positivity), Int.toNat_natCast, hAdec, ← hlenA,
          show preA.length + 1 = preA.length + 1 from rfl, List.take_append 1]
        simp
      have hdown : jsSliceTo (getPathToRoot gp f b)
          (jsIndexOf (getPathToRoot gp f b) l0) = preB := by
        rw [hidxB, jsSliceTo_nonneg _ (by positivity), Int.toNat_natCast, hBdec,
          List.take_left' hlenB]
      rw [hup, hdown]
    have hheadA : (getPathToRoot gp f a).head? = some a := getPathToRoot_head gp f a
    have hheadB : (getPathToRoot gp f b).head? = some b := getPathToRoot_head gp f b
    have hchainA : List.Chain' (fun x y => gp x = some y) (getPathToRoot gp f a) :=
      getPathToRoot_chain gp f a
    have hchainB : List.Chain' (fun x y => gp x = some y) (getPathToRoot gp f b) :=
      getPathToRoot_chain gp f b
    rw [hpath]
    refine ⟨by simp, ?_, ?_, ?_, ?_⟩
    · -- head is the source token
      rw [hAdec] at hheadA
      have hassoc : preA ++ [l0] ++ preB.reverse = preA ++ l0 :: preB.reverse := by simp
      rw [hassoc, head?_append_cons preA preB.reverse postA l0]
      exact hheadA
    · -- last is the destination token
      have hl : (preA ++ [l0] ++ preB.reverse).getLast?
          = preB.reverse.getLast?.or (preA ++ [l0]).getLast? := List.getLast?_append
      rw [hl, List.getLast?_reverse, List.getLast?_concat]
      rw [hBdec] at hheadB
      cases preB with
      | nil =>
        obtain rfl : l0 = b := by simpa using hheadB
        simp [Option.or]
      | cons y ys =>
        obtain rfl : y = b := by simpa using hheadB
        simp [Option.or]
    · -- no duplicate tokens
      have hnodA : (getPathToRoot gp f a).Nodup := getPathToRoot_nodup gp hfa
      have hnodB : (getPathToRoot gp f b).Nodup := getPathToRoot_nodup gp hfb
      refine List.nodup_append.mpr ⟨?_, ?_, ?_⟩
      · rw [hAdec] at hnodA
        exact hnodA.sublist
          (List.Sublist.append_left (by simp) preA)
      · rw [List.nodup_reverse]
        rw [hBdec] at hnodB
        exact hnodB.sublist (List.sublist_append_left preB (l0 :: postB))
      · intro x hxup hxdown
        have hxA : x ∈ getPathToRoot gp f a := by
          rw [hAdec]
          rcases List.mem_append.mp hxup with hx | hx
          · exact List.mem_append.mpr (Or.inl hx)
          · simp only [List.mem_singleton] at hx
            subst hx
            simp
        have hxpreB : x ∈ preB := List.mem_reverse.mp hxdown
        exact hpreBnA x hxpreB hxA
    · -- consecutive tokens are joined by parent edges
      refine List.chain'_append.mpr ⟨?_, ?_, ?_⟩
      · have hsplitA := List.chain'_append.mp (by rw [← hAdec]; exact hchainA)
        have hup : List.Chain' (fun x y => gp x = some y) (preA ++ [l0]) := by
          refine List.chain'_append.mpr ⟨hsplitA.1, List.chain'_singleton l0, ?_⟩
          intro x hx y hy
          obtain rfl : l0 = y := by simpa using hy
          exact hsplitA.2.2 x hx l0 (by simp)
        exact hup.imp (fun x y h => Or.inl h)
      · rw [List.chain'_reverse]
        have hsplitB := List.chain'_append.mp (by rw [← hBdec]; exact hchainB)
        exact hsplitB.1.imp (fun x y h => Or.inr h)
      · intro x hx y hy
        rw [List.getLast?_concat] at hx
        obtain rfl : l0 = x := by simpa using hx
        rw [List.head?_reverse] at hy
        have hjunction := (List.chain'_append.mp (by rw [← hBdec]; exact hchainB)).2.2
        exact Or.inr (hjunction y hy l0 (by simp))

/-- Witness for C10 on the mock tree: the swap path from `C = 3` to `D = 4` is
a duplicate-free parent-edge path from `C` to `D`. -/
theorem claim_C10_witness :
    getSwapPath exampleParent 10 0 3 4 ≠ []
    ∧ (getSwapPath exampleParent 10 0 3 4).head? = some 3
    ∧ (getSwapPath exampleParent 10 0 3 4).getLast? = some 4
    ∧ (getSwapPath exampleParent 10 0 3 4).Nodup
    ∧ List.Chain' (adjacent exampleParent) (getSwapPath exampleParent 10 0 3 4) :=
  claim_C10_swap_path exampleParent 10 0 3 4 (by decide) (by decide) (by decide)

/-! ## Liquidity aggregator lemmas -/

lemma bestBidRow_eq_none {rows : List TickRow} (h : bestBidRow rows = none) :
    ∀ r ∈ rows, r.bidLiquidity = 0 := by
  induction rows with
  | nil => simp
  | cons r rest ih =>
    rw [bestBidRow] at h
    cases hrest : bestBidRow rest with
    | none =>
      rw [hrest] at h
      by_cases hrb : 0 < r.bidLiquidity
      · rw [if_pos hrb] at h; exact absurd h (by simp)
      · intro r' hr'
        rcases List.mem_cons.mp hr' with rfl | hr'
        · omega
        · exact ih hrest r' hr'
    | some bb =>
      rw [hrest] at h
      dsimp only at h
      split_ifs at h

lemma bestAskRow_eq_none {rows : List TickRow} (h : bestAskRow rows = none) :
    ∀ r ∈ rows, r.askLiquidity = 0 := by
  induction rows with
  | nil => simp
  | cons r rest ih =>
    rw [bestAskRow] at h
    cases hrest : bestAskRow rest with
    | none =>
      rw [hrest] at h
      by_cases hrb : 0 < r.askLiquidity
      · rw [if_pos hrb] at h; exact absurd h (by simp)
      · intro r' hr'
        rcases List.mem_cons.mp hr' with rfl | hr'
        · omega
        · exact ih hrest r' hr'
    | some bb =>
      rw [hrest] at h
      dsimp only at h
      split_ifs at h

lemma bestBidRow_spec {rows : List TickRow} {b : TickRow} (h : bestBidRow rows = some b) :
    b ∈ rows ∧ 0 < b.bidLiquidity
      ∧ ∀ r ∈ rows, 0 < r.bidLiquidity → r.price ≤ b.price := by
  induction rows generalizing b with
  | nil => simp [bestBidRow] at h
  | cons r rest ih =>
    rw [bestBidRow] at h
    cases hrest : bestBidRow rest with
    | none =>
      rw [hrest] at h
      dsimp only at h
      by_cases hrb : 0 < r.bidLiquidity
      · rw [if_pos hrb] at h
        obtain rfl : r = b := by injection h
        refine ⟨by simp, hrb, ?_⟩
        intro r' hr' hb'
        rcases List.mem_cons.mp hr' with rfl | hr'
        · exact le_refl _
        · -- no rest row carries bid liquidity when bestBidRow rest = none
          have := bestBidRow_eq_none hrest r' hr'
          omega
      · rw [if_neg hrb] at h
        exact absurd h (by simp)
    | some bb =>
      rw [hrest] at h
      dsimp only at h
      obtain ⟨hmem, hpos, hmax⟩ := ih hrest
      by_cases hcond : 0 < r.bidLiquidity ∧ bb.price < r.price
      · rw [if_pos hcond] at h
        obtain rfl : r = b := by injection h
        refine ⟨by simp, hcond.1, ?_⟩
        intro r' hr' hb'
        rcases List.mem_cons.mp hr' with rfl | hr'
        · exact le_refl _
        · exact le_of_lt (lt_of_le_of_lt (hmax r' hr' hb') hcond.2)
      · rw [if_neg hcond] at h
        obtain rfl : bb = b := by injection h
        refine ⟨by simp [hmem], hpos, ?_⟩
        intro r' hr' hb'
        rcases List.mem_cons.mp hr' with rfl | hr'
        · by_cases hlt : bb.price < r'.price
          · exact absurd ⟨hb', hlt⟩ hcond
          · exact le_of_not_lt hlt
        · exact hmax r' hr' hb'

lemma bestAskRow_spec {rows : List TickRow} {a : TickRow} (h : bestAskRow rows = some a) :
    a ∈ rows ∧ 0 < a.askLiquidity
      ∧ ∀ r ∈ rows, 0 < r.askLiquidity → a.price ≤ r.price := by
  induction rows generalizing a with
  | nil => simp [bestAskRow] at h
  | cons r rest ih =>
    rw [bestAskRow] at h
    cases hrest : bestAskRow rest with
    | none =>
      rw [hrest] at h
      dsimp only at h
      by_cases hrb : 0 < r.askLiquidity
      · rw [if_pos hrb] at h
        obtain rfl : r = a := by injection h
        refine ⟨by simp, hrb, ?_⟩
        intro r' hr' hb'
        rcases List.mem_cons.mp hr' with rfl | hr'
        · exact le_refl _
        · have := bestAskRow_eq_none hrest r' hr'
          omega
      · rw [if_neg hrb] at h
        exact absurd h (by simp)
    | some bb =>
      rw [hrest] at h
      dsimp only at h
      obtain ⟨hmem, hpos, hmin⟩ := ih hrest
      by_cases hcond : 0 < r.askLiquidity ∧ r.price < bb.price
      · rw [if_pos hcond] at h
        obtain rfl : r = a := by injection h
        refine ⟨by simp, hcond.1, ?_⟩
        intro r' hr' hb'
        rcases List.mem_cons.mp hr' with rfl | hr'
        · exact le_refl _
        · exact le_of_lt (lt_of_lt_of_le hcond.2 (hmin r' hr' hb'))
      · rw [if_neg hcond] at h
        obtain rfl : bb = a := by injection h
        refine ⟨by simp [hmem], hpos, ?_⟩
        intro r' hr' hb'
        rcases List.mem_cons.mp hr' with rfl | hr'
        · by_cases hlt : r'.price < bb.price
          · exact absurd ⟨hb', hlt⟩ hcond
          · exact le_of_not_lt hlt
        · exact hmin r' hr' hb'

lemma bestBidRow_isSome {rows : List TickRow} (h : ∃ r ∈ rows, 0 < r.bidLiquidity) :
    (bestBidRow rows).isSome := by
  cases hb : bestBidRow rows with
  | none =>
    obtain ⟨r, hr, hpos⟩ := h
    have := bestBidRow_eq_none hb r hr
    omega
  | some b => simp

lemma bestAskRow_isSome {rows : List TickRow} (h : ∃ r ∈ rows, 0 < r.askLiquidity) :
    (bestAskRow rows).isSome := by
  cases hb : bestAskRow rows with
  | none =>
    obtain ⟨r, hr, hpos⟩ := h
    have := bestAskRow_eq_none hb r hr
    omega
  | some b => simp

lemma sum_map_rowLiquidityUsd_split (rows : List TickRow) :
    (rows.map (fun r => ((r.bidLiquidity : ℚ) / 10 ^ TOKEN_DECIMALS) * r.price)).sum
      + (rows.map (fun r => (r.askLiquidity : ℚ) / 10 ^ TOKEN_DECIMALS)).sum
      = (rows.map rowLiquidityUsd).sum := by
  induction rows with
  | nil => simp
  | cons r rest ih =>
    simp only [List.map_cons, List.sum_cons, rowLiquidityUsd]
    rw [← ih]
    ring

lemma sum_map_zero_of_bothZero (l : List TickRow) (h : ∀ r ∈ l, bothZero r = true) :
    (l.map rowLiquidityUsd).sum = 0 := by
  apply List.sum_eq_zero
  intro x hx
  obtain ⟨r, hr, rfl⟩ := List.mem_map.mp hx
  have hz := h r hr
  unfold bothZero at hz
  simp only [Bool.and_eq_true, beq_iff_eq] at hz
  unfold rowLiquidityUsd
  rw [hz.1, hz.2]
  norm_num

lemma sum_map_dropWhile_bothZero (l : List TickRow) :
    ((l.dropWhile bothZero).map rowLiquidityUsd).sum = (l.map rowLiquidityUsd).sum := by
  conv_rhs => rw [← List.takeWhile_append_dropWhile (p := bothZero) (l := l)]
  rw [List.map_append, List.sum_append,
    sum_map_zero_of_bothZero _ (fun r hr => List.mem_takeWhile_imp hr)]
  ring

lemma sum_map_reverse_rows (l : List TickRow) :
    (l.reverse.map rowLiquidityUsd).sum = (l.map rowLiquidityUsd).sum := by
  rw [List.map_reverse, List.sum_reverse]

lemma sum_trimmed (rows : List TickRow) :
    ((((rows.dropWhile bothZero).reverse.dropWhile bothZero).reverse).map
        rowLiquidityUsd).sum
      = (rows.map rowLiquidityUsd).sum := by
  rw [sum_map_reverse_rows, sum_map_dropWhile_bothZero, sum_map_reverse_rows,
    sum_map_dropWhile_bothZero]

/-! ## Claim theorems: liquidity aggregator -/

/-- C6: the aggregator selects as best bid the row with the highest price among
rows with positive bid liquidity, and as best ask the row with the lowest price
among rows with positive ask liquidity (selection succeeding whenever such a
row exists); on the example rows of the unit test the best bid tick is `-50`
(price 0.995), the best ask tick is `50` (price 1.005), and `midPrice = 1`.
(`computePairLiquidity` is modelled from the spec; its implementation is
absent from `src/`, only its unit test is present.) -/
theorem claim_C6_best_selection :
    (∀ (rows : List TickRow) (b : TickRow), bestBidRow rows = some b →
       b ∈ rows ∧ 0 < b.bidLiquidity
         ∧ ∀ r ∈ rows, 0 < r.bidLiquidity → r.price ≤ b.price)
    ∧ (∀ (rows : List TickRow) (a : TickRow), bestAskRow rows = some a →
       a ∈ rows ∧ 0 < a.askLiquidity
         ∧ ∀ r ∈ rows, 0 < r.askLiquidity → a.price ≤ r.price)
    ∧ (∀ rows : List TickRow, (∃ r ∈ rows, 0 < r.bidLiquidity) →
        (bestBidRow rows).isSome)
    ∧ (∀ rows : List TickRow, (∃ r ∈ rows, 0 < r.askLiquidity) →
        (bestAskRow rows).isSome)
    ∧ (computePairLiquidity (0 : ℕ) 1 exampleTickRows).bestBidTick = -50
    ∧ (computePairLiquidity (0 : ℕ) 1 exampleTickRows).bestAskTick = 50
    ∧ (computePairLiquidity (0 : ℕ) 1 exampleTickRows).midPrice = 1 := by
  refine ⟨?_, ?_, ?_, ?_,
    by norm_num [computePairLiquidity, reconcileSides, bestBidRow, bestAskRow,
      exampleTickRows],
    by norm_num [computePairLiquidity, reconcileSides, bestBidRow, bestAskRow,
      exampleTickRows],
    by norm_num [computePairLiquidity, reconcileSides, bestBidRow, bestAskRow,
      exampleTickRows]⟩
  · intro rows b h; exact bestBidRow_spec h
  · intro rows a h; exact bestAskRow_spec h
  · intro rows h; exact bestBidRow_isSome h
  · intro rows h; exact bestAskRow_isSome h

/-- Witness for C6: on the unit-test rows, the selected best bid row is the one
at tick `-50` with price 0.995, which dominates the price of the other bid
row (0.99). -/
theorem claim_C6_witness :
    (⟨-50, 995 / 1000, 1000, 0⟩ : TickRow) ∈ exampleTickRows
    ∧ ((99 : ℚ) / 100 ≤ 995 / 1000) :=
  have h := claim_C6_best_selection.1 exampleTickRows ⟨-50, 995 / 1000, 1000, 0⟩
    (by norm_num [bestBidRow, exampleTickRows])
  ⟨h.1, h.2.2 ⟨-100, 99 / 100, 2200, 0⟩ (by norm_num [exampleTickRows]) (by decide)⟩

/-- C7: the aggregator is a total function over any list of `TickRow` (it is a
pure Lean function, so it raises no exception); on the empty list, and on any
book where neither a best bid nor a best ask exists, it returns an all-zero
summary rather than an error.  (`computePairLiquidity` is modelled from the
spec; its implementation is absent from `src/`.) -/
theorem claim_C7_aggregator_total (c p : α) :
    ((computePairLiquidity c p ([] : List TickRow)).bestBidTick = 0
      ∧ (computePairLiquidity c p ([] : List TickRow)).bestAskTick = 0
      ∧ (computePairLiquidity c p ([] : List TickRow)).midPrice = 0
      ∧ (computePairLiquidity c p ([] : List TickRow)).spreadBps = 0
      ∧ (computePairLiquidity c p ([] : List TickRow)).totalLiquidityUsd = 0
      ∧ (computePairLiquidity c p ([] : List TickRow)).tickRows = [])
    ∧ ∀ rows : List TickRow,
        ¬ (∃ r ∈ rows, 0 < r.bidLiquidity) → ¬ (∃ r ∈ rows, 0 < r.askLiquidity) →
        (computePairLiquidity c p rows).bestBidTick = 0
        ∧ (computePairLiquidity c p rows).bestAskTick = 0
        ∧ (computePairLiquidity c p rows).midPrice = 0
        ∧ (computePairLiquidity c p rows).spreadBps = 0
        ∧ (computePairLiquidity c p rows).totalLiquidityUsd = 0 := by
  constructor
  · refine ⟨rfl, rfl, by norm_num [computePairLiquidity, reconcileSides, bestBidRow,
      bestAskRow], ?_, by simp [computePairLiquidity], rfl⟩
    have : (computePairLiquidity c p ([] : List TickRow)).spreadBps
        = if (0 : ℚ) < (0 + 0) / 2 then (((0 : ℚ) - 0) / ((0 + 0) / 2)) * 10000 else 0 := rfl
    rw [this]
    norm_num
  · intro rows h1 h2
    have hbid : bestBidRow rows = none := by
      cases hb : bestBidRow rows with
      | none => rfl
      | some b =>
        obtain ⟨hm, hp, _⟩ := bestBidRow_spec hb
        exact absurd ⟨b, hm, hp⟩ h1
    have hask : bestAskRow rows = none := by
      cases ha : bestAskRow rows with
      | none => rfl
      | some a =>
        obtain ⟨hm, hp, _⟩ := bestAskRow_spec ha
        exact absurd ⟨a, hm, hp⟩ h2
    have hrec : reconcileSides rows = ((0, 0), (0, 0)) := by
      unfold reconcileSides
      rw [hbid, hask]
    have htot : (rows.map rowLiquidityUsd).sum = 0 := by
      apply List.sum_eq_zero
      intro x hx
      obtain ⟨r, hr, rfl⟩ := List.mem_map.mp hx
      have hrb : r.bidLiquidity = 0 := by
        by_contra hne
        exact h1 ⟨r, hr, by omega⟩
      have hra : r.askLiquidity = 0 := by
        by_contra hne
        exact h2 ⟨r, hr, by omega⟩
      unfold rowLiquidityUsd
      rw [hrb, hra]
      norm_num
    simp only [computePairLiquidity, hrec, htot]
    norm_num

/-- Witness for C7: a one-row book with no liquidity on either side yields the
all-zero summary. -/
theorem claim_C7_witness :
    (computePairLiquidity (0 : ℕ) 1 [⟨0, 1, 0, 0⟩]).midPrice = 0
    ∧ (computePairLiquidity (0 : ℕ) 1 [⟨0, 1, 0, 0⟩]).spreadBps = 0
    ∧ (computePairLiquidity (0 : ℕ) 1 [⟨0, 1, 0, 0⟩]).totalLiquidityUsd = 0 :=
  have h := (claim_C7_aggregator_total (0 : ℕ) 1).2 [⟨0, 1, 0, 0⟩]
    (by decide) (by decide)
  ⟨h.2.2.1, h.2.2.2.1, h.2.2.2.2⟩

/-- C8: on a single-sided book (liquidity on exactly one of the two sides), the
aggregator sets the missing side's price equal to the existing side's price,
and returns `spreadBps = 0`.  (`computePairLiquidity` is modelled from the
spec; its implementation is absent from `src/`.) -/
theorem claim_C8_single_sided (c p : α) (rows : List TickRow) :
    ((∃ r ∈ rows, 0 < r.bidLiquidity) → (∀ r ∈ rows, r.askLiquidity = 0) →
      (reconcileSides rows).2.2 = (reconcileSides rows).1.2
      ∧ (computePairLiquidity c p rows).spreadBps = 0)
    ∧ ((∃ r ∈ rows, 0 < r.askLiquidity) → (∀ r ∈ rows, r.bidLiquidity = 0) →
      (reconcileSides rows).1.2 = (reconcileSides rows).2.2
      ∧ (computePairLiquidity c p rows).spreadBps = 0) := by
  constructor
  · intro hex hask
    obtain ⟨b, hb⟩ := Option.isSome_iff_exists.mp (bestBidRow_isSome hex)
    have haskn : bestAskRow rows = none := by
      cases ha : bestAskRow rows with
      | none => rfl
      | some a =>
        obtain ⟨hm, hp, _⟩ := bestAskRow_spec ha
        rw [hask a hm] at hp
        omega
    have hrec : reconcileSides rows = ((b.tick, b.price), (b.tick, b.price)) := by
      unfold reconcileSides
      rw [hb, haskn]
    refine ⟨by rw [hrec], ?_⟩
    simp only [computePairLiquidity, hrec]
    norm_num
  · intro hex hbid
    obtain ⟨a, ha⟩ := Option.isSome_iff_exists.mp (bestAskRow_isSome hex)
    have hbidn : bestBidRow rows = none := by
      cases hb : bestBidRow rows with
      | none => rfl
      | some b =>
        obtain ⟨hm, hp, _⟩ := bestBidRow_spec hb
        rw [hbid b hm] at hp
        omega
    have hrec : reconcileSides rows = ((a.tick, a.price), (a.tick, a.price)) := by
      unfold reconcileSides
      rw [hbidn, ha]
    refine ⟨by rw [hrec], ?_⟩
    simp only [computePairLiquidity, hrec]
    norm_num

/-- Witness for C8: a bids-only book (the two bid rows of the unit test) gets
the ask side set equal to the bid side and a zero spread. -/
theorem claim_C8_witness :
    (reconcileSides [⟨-100, 99 / 100, 2200, 0⟩, ⟨-50, 995 / 1000, 1000, 0⟩]).2.2
      = (reconcileSides [⟨-100, 99 / 100, 2200, 0⟩, ⟨-50, 995 / 1000, 1000, 0⟩]).1.2
    ∧ (computePairLiquidity (0 : ℕ) 1
        [⟨-100, 99 / 100, 2200, 0⟩, ⟨-50, 995 / 1000, 1000, 0⟩]).spreadBps = 0 :=
  (claim_C8_single_sided 0 1 [⟨-100, 99 / 100, 2200, 0⟩, ⟨-50, 995 / 1000, 1000, 0⟩]).1
    (by decide) (by decide)

/-- C9: whenever the aggregation tail of `fetchPairLiquidity` returns a
summary, its `totalLiquidityUsd` equals the sum over all input rows of
(bid liquidity in display units times the row's price) plus (ask liquidity in
display units, not multiplied by price) — the bid/ask asymmetry exactly as in
the source. -/
theorem claim_C9_total_liquidity (c p : α) (bbt bat : Int) (rows : List TickRow)
    (pl : PairLiquidity α)
    (h : fetchPairLiquidityAggregate c p bbt bat rows = some pl) :
    pl.totalLiquidityUsd = (rows.map rowLiquidityUsd).sum := by
  simp only [fetchPairLiquidityAggregate] at h
  split at h
  · exact absurd h (by simp)
  · obtain rfl := Option.some.inj h
    dsimp only
    rw [sum_map_rowLiquidityUsd_split, sum_trimmed]

/-- Witness for C9: a concrete three-row book whose summary's total liquidity
is the row-sum. -/
theorem claim_C9_witness :
    fetchPairLiquidityAggregate (0 : ℕ) 1 (-50) 50
        [⟨50, 1005 / 1000, 0, 400⟩, ⟨0, 1, 0, 0⟩, ⟨-50, 995 / 1000, 1000, 0⟩]
      = some ⟨0, 1, -50, 50, 1, 100, 1395 / 1000000,
          [⟨50, 1005 / 1000, 0, 400⟩, ⟨0, 1, 0, 0⟩, ⟨-50, 995 / 1000, 1000, 0⟩]⟩
    ∧ (⟨0, 1, -50, 50, 1, 100, 1395 / 1000000,
          [⟨50, 1005 / 1000, 0, 400⟩, ⟨0, 1, 0, 0⟩,
            ⟨-50, 995 / 1000, 1000, 0⟩]⟩ : PairLiquidity ℕ).totalLiquidityUsd
      = ([⟨50, 1005 / 1000, 0, 400⟩, ⟨0, 1, 0, 0⟩,
          ⟨-50, 995 / 1000, 1000, 0⟩].map rowLiquidityUsd).sum :=
  ⟨by norm_num [fetchPairLiquidityAggregate, bothZero, TOKEN_DECIMALS],
    claim_C9_total_liquidity (0 : ℕ) 1 (-50) 50
      [⟨50, 1005 / 1000, 0, 400⟩, ⟨0, 1, 0, 0⟩, ⟨-50, 995 / 1000, 1000, 0⟩]
      ⟨0, 1, -50, 50, 1, 100, 1395 / 1000000,
        [⟨50, 1005 / 1000, 0, 400⟩, ⟨0, 1, 0, 0⟩, ⟨-50, 995 / 1000, 1000, 0⟩]⟩
      (by norm_num [fetchPairLiquidityAggregate, bothZero, TOKEN_DECIMALS])⟩

end TempoDex
